import Mathlib

/-!
# Verification of the worldiety/vfs mount/path/router layer

A shallow embedding of the Go sources of the `vfs` package (path model in
`dataprovider.go`, mountable composite filesystem in `router.go`, joined
result set in `rootprovider.go`, router matcher in `router.go`), with
theorems settling the specification claims.

Go strings are modelled as `List Char` (`Str`), Go `nil`/panic outcomes as
`Option`/`none`, Go errors as an explicit `GoErr` value.  Backends
(`FileSystem` interface values) are an opaque type parameter `α`; a
delegated backend call is represented by returning the backend together
with the argument paths it would receive.
-/

set_option linter.unusedVariables false

namespace Vfs

/-- Go strings, modelled as lists of characters. -/
abbrev Str := List Char

/-- Code points Go's `unicode.IsSpace` treats as white space
(relevant for `strings.TrimSpace`). -/
def goSpaceCodes : List Nat :=
  [9, 10, 11, 12, 13, 32, 133, 160, 0x1680, 0x2000, 0x2001, 0x2002, 0x2003,
   0x2004, 0x2005, 0x2006, 0x2007, 0x2008, 0x2009, 0x200A, 0x2028, 0x2029,
   0x202F, 0x205F, 0x3000]

/-- Models `unicode.IsSpace` for the characters that can occur here. -/
def isSpaceGo (c : Char) : Bool := c.toNat ∈ goSpaceCodes

/-- Drop leading white space (the left half of `strings.TrimSpace`). -/
def trimLeftGo : Str → Str
  | [] => []
  | c :: cs => if isSpaceGo c then trimLeftGo cs else c :: cs

/-- Models `strings.TrimSpace`: drop white space on both ends. -/
def trimSpaceGo (s : Str) : Str := (trimLeftGo (trimLeftGo s).reverse).reverse

/-- Models `strings.Split(s, "/")`: chunks between `/` separators, empty chunks kept. -/
def splitOnSlash : Str → List Str
  | [] => [[]]
  | c :: cs =>
    match splitOnSlash cs with
    | [] => [[]]
    | s :: ss => if c = '/' then [] :: s :: ss else (c :: s) :: ss

/-- Models `Path.Names` (dataprovider.go): split by `/`, trim each segment,
keep the non-empty ones. -/
def names (p : Str) : List Str :=
  ((splitOnSlash p).map trimSpaceGo).filter (fun s => !s.isEmpty)

/-- Models `Path.NameCount`. -/
def nameCount (p : Str) : Nat := (names p).length

/-- Models `strings.Join(elems, "/")`. -/
def joinSlash : List Str → Str
  | [] => []
  | [s] => s
  | s :: t :: r => s ++ '/' :: joinSlash (t :: r)

/-- Models `Path.String` (dataprovider.go): `"/" + strings.Join(p.Names(), "/")`. -/
def pathString (p : Str) : Str := '/' :: joinSlash (names p)

/-- The canonical string of a segment list: what `Path.String` produces. -/
def canonical (L : List Str) : Str := '/' :: joinSlash L

/-- Models `Path.Child` (dataprovider.go). -/
def child (p n : Str) : Str :=
  if n.head? = some '/' then pathString p ++ n else pathString p ++ '/' :: n

/-- Models `strings.TrimPrefix`. -/
def stripPfx (s pre : Str) : Str :=
  if pre.isPrefixOf s then s.drop pre.length else s

/-- Models `Path.TrimPrefix` (dataprovider.go):
`"/" + strings.TrimPrefix(p.String(), prefix.String())`. -/
def trimPfx (p pre : Str) : Str := '/' :: stripPfx (pathString p) (pathString pre)

/-- Models `Path.Parent` (dataprovider.go): all segments but the last, joined
WITHOUT a leading slash; empty for the empty path. -/
def parent (p : Str) : Str :=
  if names p = [] then [] else joinSlash (names p).dropLast

/-- Models `Path.StartsWith` (dataprovider.go): raw `strings.HasPrefix`. -/
def startsWith (p pre : Str) : Bool := pre.isPrefixOf p

/-- Models `Path.Name` (dataprovider.go).  The source reads `tmp[len(tmp)]`, an
out-of-range index whenever `tmp` is non-empty; the panic is modelled as
`none` via `List.get?` at the same index. -/
def pathName (p : Str) : Option Str :=
  if (names p).length > 0 then (names p).get? (names p).length else some []

/-- A well-formed path segment: what `Path.Names` can produce. -/
def ValidSeg (s : Str) : Prop := s ≠ [] ∧ trimSpaceGo s = s ∧ '/' ∉ s

instance (s : Str) : Decidable (ValidSeg s) := by
  unfold ValidSeg; infer_instance

/-! ## Lemmas about the string model -/

theorem splitOnSlash_ne_nil (a : Str) : splitOnSlash a ≠ [] := by
  cases a with
  | nil => simp [splitOnSlash]
  | cons c cs =>
    simp only [splitOnSlash]
    cases splitOnSlash cs with
    | nil => simp
    | cons s ss => by_cases h : c = '/' <;> simp [h]

theorem splitOnSlash_append (a b : Str) :
    splitOnSlash (a ++ '/' :: b) = splitOnSlash a ++ splitOnSlash b := by
  induction a with
  | nil =>
    show splitOnSlash ('/' :: b) = [[]] ++ splitOnSlash b
    simp only [splitOnSlash]
    cases hb : splitOnSlash b with
    | nil => exact absurd hb (splitOnSlash_ne_nil b)
    | cons s ss => simp
  | cons c cs ih =>
    show splitOnSlash (c :: (cs ++ '/' :: b)) = splitOnSlash (c :: cs) ++ splitOnSlash b
    simp only [splitOnSlash, ih]
    cases hsp : splitOnSlash cs with
    | nil => exact absurd hsp (splitOnSlash_ne_nil cs)
    | cons s ss =>
      by_cases h : c = '/' <;> simp [h]

theorem splitOnSlash_no_slash (a : Str) (h : '/' ∉ a) : splitOnSlash a = [a] := by
  induction a with
  | nil => rfl
  | cons c cs ih =>
    simp only [List.mem_cons, not_or] at h
    have hc : ¬ c = '/' := fun hh => h.1 hh.symm
    simp only [splitOnSlash, ih h.2, if_neg hc]

theorem mem_splitOnSlash_no_slash (a : Str) : ∀ x ∈ splitOnSlash a, '/' ∉ x := by
  induction a with
  | nil =>
    intro x hx
    simp only [splitOnSlash, List.mem_singleton] at hx
    subst hx; simp
  | cons c cs ih =>
    intro x hx
    simp only [splitOnSlash] at hx
    cases hsp : splitOnSlash cs with
    | nil => exact absurd hsp (splitOnSlash_ne_nil cs)
    | cons s ss =>
      rw [hsp] at hx
      have hx2 : x ∈ (if c = '/' then [] :: s :: ss else (c :: s) :: ss) := hx
      clear hx
      rename' hx2 => hx
      have hs : '/' ∉ s := ih s (by rw [hsp]; exact List.mem_cons_self s ss)
      by_cases h : c = '/'
      · rw [if_pos h] at hx
        rcases List.mem_cons.mp hx with h1 | h1
        · subst h1; simp
        · rcases List.mem_cons.mp h1 with h2 | h2
          · subst h2; exact hs
          · exact ih x (by rw [hsp]; exact List.mem_cons_of_mem s h2)
      · rw [if_neg h] at hx
        rcases List.mem_cons.mp hx with h1 | h1
        · subst h1
          intro hm
          rcases List.mem_cons.mp hm with h2 | h2
          · exact h h2.symm
          · exact hs h2
        · exact ih x (by rw [hsp]; exact List.mem_cons_of_mem s h1)

theorem trimLeftGo_head (s : Str) :
    ∀ c cs, trimLeftGo s = c :: cs → isSpaceGo c = false := by
  induction s with
  | nil => intro c cs h; simp [trimLeftGo] at h
  | cons a as ih =>
    intro c cs h
    simp only [trimLeftGo] at h
    by_cases ha : isSpaceGo a
    · rw [if_pos ha] at h; exact ih c cs h
    · rw [if_neg ha] at h
      injection h with h1 h2
      subst h1
      simpa using ha

theorem trimLeftGo_idem (s : Str) : trimLeftGo (trimLeftGo s) = trimLeftGo s := by
  cases h : trimLeftGo s with
  | nil => rfl
  | cons c cs => simp [trimLeftGo, trimLeftGo_head s c cs h]

theorem trimLeftGo_suffix (s : Str) : trimLeftGo s <:+ s := by
  induction s with
  | nil => simp [trimLeftGo]
  | cons a as ih =>
    simp only [trimLeftGo]
    by_cases ha : isSpaceGo a
    · rw [if_pos ha]
      exact ih.trans (List.suffix_cons a as)
    · rw [if_neg ha]

theorem trimLeftGo_getLast? (s : Str) (h : trimLeftGo s ≠ []) :
    (trimLeftGo s).getLast? = s.getLast? := by
  obtain ⟨t, ht⟩ := trimLeftGo_suffix s
  conv_rhs => rw [← ht]
  exact (List.getLast?_append_of_ne_nil t h).symm

theorem trimLeftGo_of_head (s : Str)
    (h : ∀ c, s.head? = some c → isSpaceGo c = false) : trimLeftGo s = s := by
  cases s with
  | nil => rfl
  | cons c cs => simp [trimLeftGo, h c rfl]

theorem trimSpaceGo_idem (s : Str) : trimSpaceGo (trimSpaceGo s) = trimSpaceGo s := by
  have hu := trimLeftGo_head s
  unfold trimSpaceGo
  generalize hgen : trimLeftGo s = u at hu ⊢
  have hw1 : trimLeftGo (trimLeftGo u.reverse).reverse = (trimLeftGo u.reverse).reverse := by
    apply trimLeftGo_of_head
    intro c hc
    rw [List.head?_reverse] at hc
    have hne : trimLeftGo u.reverse ≠ [] := by
      intro h0; rw [h0] at hc; simp at hc
    rw [trimLeftGo_getLast? u.reverse hne, List.getLast?_reverse] at hc
    cases hu0 : u with
    | nil => rw [hu0] at hc; simp at hc
    | cons d ds =>
      rw [hu0] at hc
      simp only [List.head?_cons, Option.some.injEq] at hc
      subst hc
      exact hu d ds hu0
  rw [hw1, List.reverse_reverse, trimLeftGo_idem]

theorem mem_trimSpaceGo (s : Str) (c : Char) (h : c ∈ trimSpaceGo s) : c ∈ s := by
  unfold trimSpaceGo at h
  rw [List.mem_reverse] at h
  have h1 := (trimLeftGo_suffix (trimLeftGo s).reverse).subset h
  rw [List.mem_reverse] at h1
  exact (trimLeftGo_suffix s).subset h1

theorem validSeg_of_mem_names (p : Str) (x : Str) (hx : x ∈ names p) : ValidSeg x := by
  unfold names at hx
  rw [List.mem_filter] at hx
  obtain ⟨hmem, hne⟩ := hx
  rw [List.mem_map] at hmem
  obtain ⟨c, hc, hcx⟩ := hmem
  refine ⟨?_, ?_, ?_⟩
  · intro h; rw [h] at hne; simp at hne
  · rw [← hcx]; exact trimSpaceGo_idem c
  · intro hsl
    rw [← hcx] at hsl
    exact mem_splitOnSlash_no_slash p c hc (mem_trimSpaceGo c '/' hsl)

theorem names_nil : names ([] : Str) = [] := by decide

theorem names_append (a b : Str) : names (a ++ '/' :: b) = names a ++ names b := by
  unfold names
  rw [splitOnSlash_append, List.map_append, List.filter_append]

theorem names_cons_slash (x : Str) : names ('/' :: x) = names x := by
  have := names_append [] x
  simpa [names_nil] using this

theorem names_single (s : Str) (h : ValidSeg s) : names s = [s] := by
  obtain ⟨h1, h2, h3⟩ := h
  unfold names
  rw [splitOnSlash_no_slash s h3]
  simp [h2, h1]

theorem names_joinSlash (L : List Str) (h : ∀ s ∈ L, ValidSeg s) :
    names (joinSlash L) = L := by
  induction L with
  | nil => simpa using names_nil
  | cons s r ih =>
    cases r with
    | nil => simpa [joinSlash] using names_single s (h s (by simp))
    | cons t r2 =>
      show names (s ++ '/' :: joinSlash (t :: r2)) = s :: t :: r2
      rw [names_append, names_single s (h s (by simp)),
        ih (fun x hx => h x (List.mem_cons_of_mem s hx))]
      simp

theorem names_canonical (L : List Str) (h : ∀ s ∈ L, ValidSeg s) :
    names (canonical L) = L := by
  unfold canonical
  rw [names_cons_slash, names_joinSlash L h]

theorem pathString_eq_canonical (p : Str) : pathString p = canonical (names p) := rfl

theorem names_pathString (p : Str) : names (pathString p) = names p :=
  names_canonical (names p) (validSeg_of_mem_names p)

theorem pathString_canonical (L : List Str) (h : ∀ s ∈ L, ValidSeg s) :
    pathString (canonical L) = canonical L := by
  rw [pathString_eq_canonical, names_canonical L h]

theorem isPfxOf_of_pfx {l1 l2 : Str} (h : l1 <+: l2) : l1.isPrefixOf l2 = true :=
  List.isPrefixOf_iff_prefix.mpr h

theorem joinSlash_append (M R : List Str) (hM : M ≠ []) (hR : R ≠ []) :
    joinSlash (M ++ R) = joinSlash M ++ '/' :: joinSlash R := by
  induction M with
  | nil => exact absurd rfl hM
  | cons m M2 ih =>
    cases M2 with
    | nil =>
      cases R with
      | nil => exact absurd rfl hR
      | cons r R2 => simp [joinSlash]
    | cons m2 M3 =>
      show joinSlash (m :: (m2 :: M3 ++ R)) = _
      have : m2 :: M3 ++ R = (m2 :: (M3 ++ R) : List Str) := by simp
      rw [this]
      show m ++ '/' :: joinSlash (m2 :: (M3 ++ R)) = _
      have h2 := ih (by simp)
      simp only [List.cons_append] at h2
      rw [h2]
      simp [joinSlash]

theorem canonical_append (M R : List Str) (hM : M ≠ []) (hR : R ≠ []) :
    canonical (M ++ R) = canonical M ++ canonical R := by
  unfold canonical
  rw [joinSlash_append M R hM hR]
  simp

theorem validSeg_head_ne_slash (n : Str) (h : ValidSeg n) : n.head? ≠ some '/' := by
  obtain ⟨h1, _, h3⟩ := h
  cases n with
  | nil => simp
  | cons c cs =>
    intro hc
    simp only [List.head?_cons, Option.some.injEq] at hc
    exact h3 (by rw [hc]; exact List.mem_cons_self _ _)

theorem child_validSeg (p n : Str) (h : ValidSeg n) :
    child p n = pathString p ++ '/' :: n := by
  unfold child
  rw [if_neg (validSeg_head_ne_slash n h)]

/-! ## The virtual mount tree (router.go)

`virtualDir` holds named entries whose data is either a nested
`virtualDir` or a mounted `FileSystem`.  Backends are opaque values of a
type parameter `α`. -/

/-- The `data` of a `namedEntry`: either a mounted backend (`FileSystem`)
or a nested `virtualDir` given by its children list. -/
inductive VNode (α : Type) where
  | fs (f : α)
  | dir (children : List (Str × VNode α))

/-- A `virtualDir`, identified with its ordered children list. -/
abbrev VDir (α : Type) := List (Str × VNode α)

variable {α : Type}

/-- Models `virtualDir.ChildByName`: data of the first child with the given name. -/
def childByName : VDir α → Str → Option (VNode α)
  | [], _ => none
  | e :: rest, n => if e.1 = n then some e.2 else childByName rest n

/-- Models `virtualDir.RemoveChild`: drop the first child with the given name. -/
def removeChild : VDir α → Str → VDir α
  | [], _ => []
  | e :: rest, n => if e.1 = n then rest else e :: removeChild rest n

/-- In-place update of the first child with the given name (Go mutates the
found `namedEntry.data`). -/
def setChild : VDir α → Str → VNode α → VDir α
  | [], _, _ => []
  | e :: rest, n, v => if e.1 = n then (n, v) :: rest else e :: setChild rest n v

/-- The loop body of `MountableFileSystem.Mount` over the segment list of
the mount point.  Go slices `names[0:len(names)-1]` and indexes
`names[len(names)-1]`; on an empty segment list that panics with a
slice-bounds error, modelled as `none`. -/
def mountList : VDir α → List Str → α → Option (VDir α)
  | _, [], _ => none
  | ch, [n], f => some (removeChild ch n ++ [(n, .fs f)])
  | ch, n :: m :: rest, f =>
    match childByName ch n with
    | none => (mountList [] (m :: rest) f).map (fun sub => ch ++ [(n, .dir sub)])
    | some (.dir d) => (mountList d (m :: rest) f).map (fun sub => setChild ch n (.dir sub))
    | some (.fs _) => (mountList [] (m :: rest) f).map (fun sub => setChild ch n (.dir sub))

/-- Models `MountableFileSystem.Mount` (router.go): walk/create intermediate
nodes for all but the last segment, replace the leaf. -/
def goMount (t : VDir α) (mountPoint : Str) (f : α) : Option (VDir α) :=
  mountList t (names mountPoint) f

/-- The `DefaultError` fields used by the composite filesystem
(errors.go): status code, message, details payload. -/
structure GoErr where
  code : Nat
  message : Str
  payload : Option Str
  deriving DecidableEq

/-- Status code `ENOMP` (mount point not found). -/
def ENOMP : Nat := 253

/-- Status code `EINVAL` (invalid argument). -/
def EINVAL : Nat := 22

/-- Status code `ENOSYS` (function not implemented / operation not
supported; `NewErr().UnsupportedOperation` produces this code). -/
def ENOSYS : Nat := 38

/-- The error returned by `MountableFileSystem.Resolve` on failure. -/
def mpNotFound (p : Str) : GoErr :=
  ⟨ENOMP, "mount point not found".toList, some p⟩

/-- The error returned by `resolveOldNewPath` for two different mount
points `mp0` and `mp1`. -/
def crossMountErr (mp0 mp1 : Str) : GoErr :=
  ⟨EINVAL, "cannot operate across mount points: ".toList ++ mp0 ++ " -> ".toList ++ mp1, none⟩

/-- The loop of `MountableFileSystem.Resolve` (router.go): walk the tree
one segment at a time, extending the accumulated `mountPoint` string via
`Path(mountPoint).Child(name).String()`; stop at a mounted backend. -/
def resolveLoop (orig : Str) : VDir α → List Str → Str → Except GoErr (Str × Str × α)
  | _, [], _ => .error (mpNotFound orig)
  | ch, n :: rest, mp =>
    match childByName ch n with
    | none => .error (mpNotFound orig)
    | some (.fs dp) =>
      .ok (pathString (child mp n),
        pathString (trimPfx orig (pathString (child mp n))), dp)
    | some (.dir d) => resolveLoop orig d rest (pathString (child mp n))

/-- Models `MountableFileSystem.Resolve` (router.go): returns
`(mountPoint, providerPath, provider)` or a mount-point-not-found error. -/
def goResolve (t : VDir α) (p : Str) : Except GoErr (Str × Str × α) :=
  resolveLoop p t (names p) []

/-- Models `MountableFileSystem.Open` (router.go): resolve, propagate the error,
otherwise delegate.  The delegated backend call is represented by the
resolved backend together with the provider path it receives. -/
def goOpen (t : VDir α) (p : Str) : Except GoErr (α × Str) :=
  match goResolve t p with
  | .error e => .error e
  | .ok (_, pp, dp) => .ok (dp, pp)

/-- The pure walk of the mount tree: the consumed segment prefix and the
backend reached, or `none` when the walk never reaches a mounted backend. -/
def fsPath : VDir α → List Str → Option (List Str × α)
  | _, [] => none
  | ch, n :: rest =>
    match childByName ch n with
    | none => none
    | some (.fs f) => some ([n], f)
    | some (.dir d) => (fsPath d rest).map (fun w => (n :: w.1, w.2))

/-- Well-formedness of a tree node: children of every directory carry
pairwise distinct names (the Mount Tree invariant of the source). -/
inductive WFn : VNode α → Prop where
  | fs (f : α) : WFn (.fs f)
  | dir (ch : VDir α) : (ch.map Prod.fst).Nodup → (∀ e ∈ ch, WFn e.2) → WFn (.dir ch)

/-- Well-formedness of a `virtualDir`. -/
def wfDir (ch : VDir α) : Prop := WFn (.dir ch)

/-- The mount-point string accumulated by the `Resolve` loop over a list
of consumed segments. -/
def mpFold (acc : Str) (ns : List Str) : Str :=
  ns.foldl (fun a n => pathString (child a n)) acc

/-- Models `resolveOldNewPath` (router.go): resolve both paths, propagate
errors, reject distinct mount points with an `EINVAL` error, otherwise
return the backend with both trimmed paths. -/
def resolveOldNew (t : VDir α) (oldPath newPath : Str) :
    Except GoErr (α × Str × Str) :=
  match goResolve t oldPath, goResolve t newPath with
  | .error e0, _ => .error e0
  | .ok _, .error e1 => .error e1
  | .ok (mp0, _, dp0), .ok (mp1, _, _) =>
    if mp0 = mp1 then
      .ok (dp0, pathString (trimPfx oldPath mp0), pathString (trimPfx newPath mp1))
    else .error (crossMountErr mp0 mp1)

/-- The four two-path operations of the composite filesystem. -/
inductive TwoPathOp where
  | rename | symlink | hardlink | reflink
  deriving DecidableEq

/-- Models `Rename`/`SymLink`/`HardLink`/`RefLink` (router.go): all four call
`resolveOldNewPath` and delegate on success; the delegated call is
represented by the operation tag, the backend and its two argument
paths. -/
def goTwoPath (op : TwoPathOp) (t : VDir α) (oldPath newPath : Str) :
    Except GoErr (TwoPathOp × α × Str × Str) :=
  match resolveOldNew t oldPath newPath with
  | .error e => .error e
  | .ok (dp, o, n) => .ok (op, dp, o, n)

/-- The removal loop of `MountableFileSystem.Disconnect` (router.go):
walk the full segment list, removing the leaf at the last segment.  A
`nil` child or a non-directory intermediate makes Go panic (type
assertion), modelled as `none`. -/
def removeLeafAt : VDir α → List Str → Option (VDir α)
  | ch, [] => some ch
  | ch, [n] => some (removeChild ch n)
  | ch, n :: m :: rest =>
    match childByName ch n with
    | none => none
    | some (.fs _) => none
    | some (.dir d) => (removeLeafAt d (m :: rest)).map (fun d2 => setChild ch n (.dir d2))

/-- Models `MountableFileSystem.Disconnect` (router.go): resolve (propagating
the error), call the backend's `Disconnect` (its result is `beh dp`),
then remove the tree entry regardless, and return the backend error. -/
def goDisconnect (beh : α → Option GoErr) (t : VDir α) (p : Str) :
    Option (VDir α × Option GoErr) :=
  match goResolve t p with
  | .error e => some (t, some e)
  | .ok (_, _, dp) => (removeLeafAt t (names p)).map (fun t2 => (t2, beh dp))

/-! ## Lemmas about the tree model -/

theorem childByName_eq_none {ch : VDir α} {n : Str} :
    childByName ch n = none ↔ n ∉ ch.map Prod.fst := by
  induction ch with
  | nil => simp [childByName]
  | cons e rest ih =>
    simp only [childByName, List.map_cons, List.mem_cons]
    by_cases h : e.1 = n
    · rw [if_pos h]
      constructor
      · intro hx; cases hx
      · intro hx; exact absurd (Or.inl h.symm) hx
    · rw [if_neg h, ih]
      constructor
      · intro hn hor
        rcases hor with h1 | h1
        · exact h h1.symm
        · exact hn h1
      · intro hn h1
        exact hn (Or.inr h1)

theorem childByName_some_mem {ch : VDir α} {n : Str} {v : VNode α}
    (h : childByName ch n = some v) : (n, v) ∈ ch := by
  induction ch with
  | nil => simp [childByName] at h
  | cons e rest ih =>
    simp only [childByName] at h
    by_cases he : e.1 = n
    · rw [if_pos he] at h
      injection h with h1
      have he2 : e = (n, v) := by rw [← he, ← h1]
      rw [← he2]
      exact List.mem_cons_self e rest
    · rw [if_neg he] at h
      exact List.mem_cons_of_mem _ (ih h)

theorem childByName_append_left {l1 l2 : VDir α} {n : Str} {v : VNode α}
    (h : childByName l1 n = some v) : childByName (l1 ++ l2) n = some v := by
  induction l1 with
  | nil => simp [childByName] at h
  | cons e rest ih =>
    simp only [childByName] at h ⊢
    by_cases he : e.1 = n
    · rwa [if_pos he] at h ⊢
    · rw [if_neg he] at h ⊢
      exact ih h

theorem childByName_append_right {l1 l2 : VDir α} {n : Str}
    (h : childByName l1 n = none) : childByName (l1 ++ l2) n = childByName l2 n := by
  induction l1 with
  | nil => simp
  | cons e rest ih =>
    simp only [childByName] at h ⊢
    by_cases he : e.1 = n
    · rw [if_pos he] at h; exact absurd h (by simp)
    · rw [if_neg he] at h ⊢
      exact ih h

theorem removeChild_sublist (ch : VDir α) (n : Str) :
    List.Sublist (removeChild ch n) ch := by
  induction ch with
  | nil => simp [removeChild]
  | cons e rest ih =>
    simp only [removeChild]
    by_cases he : e.1 = n
    · rw [if_pos he]; exact List.sublist_cons_self e rest
    · rw [if_neg he]; exact List.Sublist.cons₂ e ih

theorem not_mem_map_removeChild {ch : VDir α} {n : Str}
    (h : (ch.map Prod.fst).Nodup) : n ∉ (removeChild ch n).map Prod.fst := by
  induction ch with
  | nil => simp [removeChild]
  | cons e rest ih =>
    simp only [List.map_cons, List.nodup_cons] at h
    simp only [removeChild]
    by_cases he : e.1 = n
    · rw [if_pos he, ← he]; exact h.1
    · rw [if_neg he]
      simp only [List.map_cons, List.mem_cons]
      intro hc
      rcases hc with hc | hc
      · exact he hc.symm
      · exact ih h.2 hc

theorem childByName_removeChild_append {ch : VDir α} {n : Str} (v : VNode α)
    (h : (ch.map Prod.fst).Nodup) :
    childByName (removeChild ch n ++ [(n, v)]) n = some v := by
  rw [childByName_append_right (childByName_eq_none.mpr (not_mem_map_removeChild h))]
  simp [childByName]

theorem setChild_map_fst (ch : VDir α) (n : Str) (v : VNode α) :
    (setChild ch n v).map Prod.fst = ch.map Prod.fst := by
  induction ch with
  | nil => rfl
  | cons e rest ih =>
    simp only [setChild]
    by_cases he : e.1 = n
    · rw [if_pos he]; simp [he]
    · rw [if_neg he]; simp [ih]

theorem childByName_setChild_self {ch : VDir α} {n : Str} {v0 : VNode α}
    (h : childByName ch n = some v0) (v : VNode α) :
    childByName (setChild ch n v) n = some v := by
  induction ch with
  | nil => simp [childByName] at h
  | cons e rest ih =>
    simp only [childByName, setChild] at h ⊢
    by_cases he : e.1 = n
    · rw [if_pos he]; simp [childByName]
    · rw [if_neg he] at h ⊢
      simp only [childByName, if_neg he]
      exact ih h

theorem childByName_setChild_ne {ch : VDir α} {n : Str} {v : VNode α} {m : Str}
    (hne : m ≠ n) : childByName (setChild ch n v) m = childByName ch m := by
  have hnm : ¬ (n = m) := fun hh => hne hh.symm
  induction ch with
  | nil => rfl
  | cons e rest ih =>
    simp only [setChild]
    by_cases he : e.1 = n
    · rw [if_pos he]
      have h2 : ¬ (e.1 = m) := fun hh => hnm (he.symm.trans hh)
      simp only [childByName]
      rw [if_neg hnm, if_neg h2]
    · rw [if_neg he]
      simp only [childByName, ih]

theorem childByName_removeChild_ne {ch : VDir α} {n m : Str}
    (hne : m ≠ n) : childByName (removeChild ch n) m = childByName ch m := by
  induction ch with
  | nil => rfl
  | cons e rest ih =>
    simp only [removeChild]
    by_cases he : e.1 = n
    · rw [if_pos he]
      have h2 : ¬ (e.1 = m) := fun hh => hne (hh.symm.trans he)
      simp only [childByName]
      rw [if_neg h2]
    · rw [if_neg he]
      simp only [childByName, ih]

theorem mem_setChild {ch : VDir α} {n : Str} {v : VNode α} {e : Str × VNode α}
    (h : e ∈ setChild ch n v) : e = (n, v) ∨ e ∈ ch := by
  induction ch with
  | nil => simp [setChild] at h
  | cons e0 rest ih =>
    simp only [setChild] at h
    by_cases he : e0.1 = n
    · rw [if_pos he] at h
      rcases List.mem_cons.mp h with h1 | h1
      · exact Or.inl h1
      · exact Or.inr (List.mem_cons_of_mem e0 h1)
    · rw [if_neg he] at h
      rcases List.mem_cons.mp h with h1 | h1
      · exact Or.inr (h1 ▸ List.mem_cons_self e0 rest)
      · rcases ih h1 with h2 | h2
        · exact Or.inl h2
        · exact Or.inr (List.mem_cons_of_mem e0 h2)

theorem wfDir_nil : wfDir ([] : VDir α) := WFn.dir [] List.nodup_nil (by simp)

theorem wfDir_nodup {ch : VDir α} (h : wfDir ch) : (ch.map Prod.fst).Nodup := by
  cases h with
  | dir _ h1 _ => exact h1

theorem wfDir_mem {ch : VDir α} (h : wfDir ch) {e : Str × VNode α} (he : e ∈ ch) :
    WFn e.2 := by
  cases h with
  | dir _ _ h2 => exact h2 e he

theorem wfDir_child_dir {ch : VDir α} {n : Str} {d : VDir α}
    (h : wfDir ch) (hc : childByName ch n = some (.dir d)) : wfDir d := by
  have := wfDir_mem h (childByName_some_mem hc)
  cases this with
  | dir _ h1 h2 => exact WFn.dir d h1 h2

theorem wfDir_mount_leaf {ch : VDir α} {n : Str} (f : α) (h : wfDir ch) :
    wfDir (removeChild ch n ++ [(n, VNode.fs f)]) := by
  refine WFn.dir _ ?_ ?_
  · rw [List.map_append, List.nodup_append]
    refine ⟨((wfDir_nodup h).sublist ((removeChild_sublist ch n).map Prod.fst)), by simp, ?_⟩
    intro x hx
    simp only [List.map_cons, List.map_nil, List.mem_singleton]
    intro hxn
    subst hxn
    exact not_mem_map_removeChild (wfDir_nodup h) hx
  · intro e he
    rcases List.mem_append.mp he with h1 | h1
    · exact wfDir_mem h ((removeChild_sublist ch n).subset h1)
    · rcases List.mem_singleton.mp h1 with rfl
      exact WFn.fs f

theorem wfDir_mount_new {ch : VDir α} {n : Str} {sub : VDir α}
    (h : wfDir ch) (hnone : childByName ch n = none) (hsub : wfDir sub) :
    wfDir (ch ++ [(n, VNode.dir sub)]) := by
  refine WFn.dir _ ?_ ?_
  · rw [List.map_append, List.nodup_append]
    refine ⟨wfDir_nodup h, by simp, ?_⟩
    intro x hx
    simp only [List.map_cons, List.map_nil, List.mem_singleton]
    intro hxn
    subst hxn
    exact childByName_eq_none.mp hnone hx
  · intro e he
    rcases List.mem_append.mp he with h1 | h1
    · exact wfDir_mem h h1
    · rcases List.mem_singleton.mp h1 with rfl
      exact hsub

theorem wfDir_setChild {ch : VDir α} {n : Str} {sub : VDir α}
    (h : wfDir ch) (hsub : wfDir sub) : wfDir (setChild ch n (.dir sub)) := by
  refine WFn.dir _ ?_ ?_
  · rw [setChild_map_fst]; exact wfDir_nodup h
  · intro e he
    rcases mem_setChild he with h1 | h1
    · rw [h1]; exact hsub
    · exact wfDir_mem h h1

theorem mountList_isSome (ns : List Str) :
    ∀ (ch : VDir α) (f : α), ns ≠ [] → (mountList ch ns f).isSome := by
  induction ns with
  | nil => intro ch f h; exact absurd rfl h
  | cons n rest ih =>
    intro ch f _
    cases rest with
    | nil => simp [mountList]
    | cons m rest2 =>
      simp only [mountList]
      cases hc : childByName ch n with
      | none =>
        have := ih ([] : VDir α) f (by simp)
        cases hm : mountList ([] : VDir α) (m :: rest2) f with
        | none => rw [hm] at this; simp at this
        | some sub => simp [hm]
      | some nd =>
        cases nd with
        | dir d =>
          have := ih d f (by simp)
          cases hm : mountList d (m :: rest2) f with
          | none => rw [hm] at this; simp at this
          | some sub => simp [hm]
        | fs g =>
          have := ih ([] : VDir α) f (by simp)
          cases hm : mountList ([] : VDir α) (m :: rest2) f with
          | none => rw [hm] at this; simp at this
          | some sub => simp [hm]

theorem wfDir_mountList : ∀ (ns : List Str) (ch ch' : VDir α) (f : α),
    wfDir ch → mountList ch ns f = some ch' → wfDir ch' := by
  intro ns
  induction ns with
  | nil => intro ch ch' f _ hm; simp [mountList] at hm
  | cons n rest ih =>
    intro ch ch' f hwf hm
    cases rest with
    | nil =>
      simp only [mountList] at hm
      injection hm with h1
      rw [← h1]
      exact wfDir_mount_leaf f hwf
    | cons m rest2 =>
      simp only [mountList] at hm
      cases hc : childByName ch n with
      | none =>
        rw [hc] at hm
        rcases Option.map_eq_some'.mp hm with ⟨sub, hsub, h1⟩
        rw [← h1]
        exact wfDir_mount_new hwf hc (ih [] sub f wfDir_nil hsub)
      | some nd =>
        cases nd with
        | dir d =>
          rw [hc] at hm
          rcases Option.map_eq_some'.mp hm with ⟨sub, hsub, h1⟩
          rw [← h1]
          exact wfDir_setChild hwf (ih d sub f (wfDir_child_dir hwf hc) hsub)
        | fs g =>
          rw [hc] at hm
          rcases Option.map_eq_some'.mp hm with ⟨sub, hsub, h1⟩
          rw [← h1]
          exact wfDir_setChild hwf (ih [] sub f wfDir_nil hsub)

theorem fsPath_cons_none {ch : VDir α} {n : Str} {rest : List Str}
    (hc : childByName ch n = none) : fsPath ch (n :: rest) = none := by
  simp only [fsPath, hc]

theorem fsPath_cons_fs {ch : VDir α} {n : Str} {rest : List Str} {f : α}
    (hc : childByName ch n = some (.fs f)) : fsPath ch (n :: rest) = some ([n], f) := by
  simp only [fsPath, hc]

theorem fsPath_cons_dir {ch : VDir α} {n : Str} {rest : List Str} {d : VDir α}
    (hc : childByName ch n = some (.dir d)) :
    fsPath ch (n :: rest) = (fsPath d rest).map (fun w => (n :: w.1, w.2)) := by
  simp only [fsPath, hc]

theorem fsPath_mountList : ∀ (ns : List Str) (extra : List Str) (ch ch' : VDir α) (f : α),
    wfDir ch → mountList ch ns f = some ch' →
    fsPath ch' (ns ++ extra) = some (ns, f) := by
  intro ns
  induction ns with
  | nil => intro extra ch ch' f _ hm; simp [mountList] at hm
  | cons n rest ih =>
    intro extra ch ch' f hwf hm
    cases rest with
    | nil =>
      simp only [mountList] at hm
      injection hm with h1
      rw [← h1]
      show fsPath (removeChild ch n ++ [(n, VNode.fs f)]) (n :: extra) = some ([n], f)
      rw [fsPath_cons_fs (childByName_removeChild_append (VNode.fs f) (wfDir_nodup hwf))]
    | cons m rest2 =>
      simp only [mountList] at hm
      cases hc : childByName ch n with
      | none =>
        rw [hc] at hm
        rcases Option.map_eq_some'.mp hm with ⟨sub, hsub, h1⟩
        rw [← h1]
        have hcn : childByName (ch ++ [(n, VNode.dir sub)]) n = some (.dir sub) := by
          rw [childByName_append_right hc]; simp [childByName]
        show fsPath (ch ++ [(n, VNode.dir sub)]) (n :: (m :: rest2 ++ extra)) = _
        rw [fsPath_cons_dir hcn, ih extra [] sub f wfDir_nil hsub]
        rfl
      | some nd =>
        cases nd with
        | dir d =>
          rw [hc] at hm
          rcases Option.map_eq_some'.mp hm with ⟨sub, hsub, h1⟩
          rw [← h1]
          have hcn := childByName_setChild_self hc (VNode.dir sub)
          show fsPath (setChild ch n (.dir sub)) (n :: (m :: rest2 ++ extra)) = _
          rw [fsPath_cons_dir hcn, ih extra d sub f (wfDir_child_dir hwf hc) hsub]
          rfl
        | fs g =>
          rw [hc] at hm
          rcases Option.map_eq_some'.mp hm with ⟨sub, hsub, h1⟩
          rw [← h1]
          have hcn := childByName_setChild_self hc (VNode.dir sub)
          show fsPath (setChild ch n (.dir sub)) (n :: (m :: rest2 ++ extra)) = _
          rw [fsPath_cons_dir hcn, ih extra [] sub f wfDir_nil hsub]
          rfl

theorem resolveLoop_of_fsPath_none {orig : Str} :
    ∀ (ns : List Str) (ch : VDir α) (acc : Str), fsPath ch ns = none →
    resolveLoop orig ch ns acc = .error (mpNotFound orig) := by
  intro ns
  induction ns with
  | nil => intro ch acc _; rfl
  | cons n rest ih =>
    intro ch acc hf
    simp only [fsPath] at hf
    simp only [resolveLoop]
    cases hc : childByName ch n with
    | none => rfl
    | some nd =>
      rw [hc] at hf
      cases nd with
      | fs dp => simp at hf
      | dir d =>
        simp only [Option.map_eq_none'] at hf
        exact ih d (pathString (child acc n)) hf

theorem resolveLoop_of_fsPath_some {orig : Str} :
    ∀ (ns : List Str) (ch : VDir α) (acc : Str) (w : List Str) (f : α),
    fsPath ch ns = some (w, f) →
    resolveLoop orig ch ns acc =
      .ok (mpFold acc w, pathString (trimPfx orig (mpFold acc w)), f) := by
  intro ns
  induction ns with
  | nil => intro ch acc w f hf; simp [fsPath] at hf
  | cons n rest ih =>
    intro ch acc w f hf
    simp only [fsPath] at hf
    simp only [resolveLoop]
    cases hc : childByName ch n with
    | none => rw [hc] at hf; simp at hf
    | some nd =>
      rw [hc] at hf
      cases nd with
      | fs dp =>
        simp only [Option.some.injEq, Prod.mk.injEq] at hf
        obtain ⟨hw, hfd⟩ := hf
        subst hfd
        rw [← hw]
        rfl
      | dir d =>
        rcases Option.map_eq_some'.mp hf with ⟨⟨w2, f2⟩, hsub, h1⟩
        simp only [Prod.mk.injEq] at h1
        obtain ⟨hw, hfd⟩ := h1
        rw [hfd] at hsub
        rw [← hw]
        exact ih d (pathString (child acc n)) w2 f hsub

theorem fsPath_pfx : ∀ (ns : List Str) (ch : VDir α) (w : List Str) (f : α),
    fsPath ch ns = some (w, f) → w <+: ns := by
  intro ns
  induction ns with
  | nil => intro ch w f hf; simp [fsPath] at hf
  | cons n rest ih =>
    intro ch w f hf
    simp only [fsPath] at hf
    cases hc : childByName ch n with
    | none => rw [hc] at hf; simp at hf
    | some nd =>
      rw [hc] at hf
      cases nd with
      | fs dp =>
        simp only [Option.some.injEq, Prod.mk.injEq] at hf
        rw [← hf.1]
        simp
      | dir d =>
        rcases Option.map_eq_some'.mp hf with ⟨⟨w2, f2⟩, hsub, h1⟩
        simp only [Prod.mk.injEq] at h1
        rw [← h1.1]
        exact List.cons_prefix_cons.mpr ⟨rfl, ih d w2 f2 hsub⟩

/-! ## Canonical-form lemmas for the resolve loop -/

theorem names_child (p n : Str) (hn : ValidSeg n) :
    names (child p n) = names p ++ [n] := by
  rw [child_validSeg p n hn, names_append, names_pathString, names_single n hn]

theorem pathString_child (p n : Str) (hn : ValidSeg n) :
    pathString (child p n) = canonical (names p ++ [n]) := by
  rw [pathString_eq_canonical, names_child p n hn]

theorem mpFold_eq : ∀ (ns : List Str) (p : Str), ns ≠ [] → (∀ s ∈ ns, ValidSeg s) →
    mpFold p ns = canonical (names p ++ ns) := by
  intro ns
  induction ns with
  | nil => intro p h _; exact absurd rfl h
  | cons n rest ih =>
    intro p _ hv
    have hn : ValidSeg n := hv n (by simp)
    show mpFold (pathString (child p n)) rest = canonical (names p ++ n :: rest)
    cases rest with
    | nil =>
      show pathString (child p n) = canonical (names p ++ [n])
      exact pathString_child p n hn
    | cons m rest2 =>
      rw [ih (pathString (child p n)) (by simp)
        (fun s hs => hv s (List.mem_cons_of_mem n hs))]
      rw [names_pathString, names_child p n hn, List.append_assoc]
      rfl

theorem mpFold_nil_canonical (ns : List Str) (hne : ns ≠ [])
    (hv : ∀ s ∈ ns, ValidSeg s) : mpFold [] ns = canonical ns := by
  rw [mpFold_eq ns [] hne hv, names_nil]
  rfl

theorem pathString_trimPfx_canonical (M R : List Str) (hM : M ≠ []) (hR : R ≠ [])
    (hMv : ∀ s ∈ M, ValidSeg s) (hRv : ∀ s ∈ R, ValidSeg s) :
    pathString (trimPfx (canonical (M ++ R)) (canonical M)) = canonical R := by
  have hMRv : ∀ s ∈ M ++ R, ValidSeg s := by
    intro s hs
    rcases List.mem_append.mp hs with h | h
    · exact hMv s h
    · exact hRv s h
  unfold trimPfx
  rw [pathString_canonical _ hMRv, pathString_canonical _ hMv,
    canonical_append M R hM hR]
  unfold stripPfx
  rw [if_pos (isPfxOf_of_pfx (List.prefix_append _ _)), List.drop_left]
  rw [pathString_eq_canonical, names_cons_slash, names_canonical R hRv]

/-! ## Claim theorems: mount and resolve -/

theorem resolve_after_mount_aux {α : Type} (t t2 : VDir α) (X : α) (M R : List Str)
    (hwf : wfDir t) (hMne : M ≠ [])
    (hMv : ∀ s ∈ M, ValidSeg s) (hR : R ≠ []) (hRv : ∀ s ∈ R, ValidSeg s)
    (hmount : goMount t (canonical M) X = some t2) :
    goResolve t2 (canonical M ++ canonical R) = .ok (canonical M, canonical R, X) := by
  have hMRv : ∀ s ∈ M ++ R, ValidSeg s := by
    intro s hs
    rcases List.mem_append.mp hs with h | h
    · exact hMv s h
    · exact hRv s h
  unfold goMount at hmount
  rw [names_canonical M hMv] at hmount
  unfold goResolve
  rw [← canonical_append M R hMne hR, names_canonical (M ++ R) hMRv]
  have hfs : fsPath t2 (M ++ R) = some (M, X) :=
    fsPath_mountList M R t t2 X hwf hmount
  rw [resolveLoop_of_fsPath_some (M ++ R) t2 [] M X hfs,
    mpFold_nil_canonical M hMne hMv,
    pathString_trimPfx_canonical M R hMne hR hMv hRv]

/-- C1: after `Mount(m, X)` for a multi-segment mount point `m` (canonical
form of segments `M`), `Resolve` on `m` followed by a non-empty residual
`r` (canonical form of segments `R`) returns mount point `m`, provider
path `r`, and backend `X`. -/
theorem mount_resolve_exact {α : Type} (t t2 : VDir α) (X : α) (M R : List Str)
    (hwf : wfDir t) (hM : 2 ≤ M.length)
    (hMv : ∀ s ∈ M, ValidSeg s) (hR : R ≠ []) (hRv : ∀ s ∈ R, ValidSeg s)
    (hmount : goMount t (canonical M) X = some t2) :
    goResolve t2 (canonical M ++ canonical R) = .ok (canonical M, canonical R, X) :=
  resolve_after_mount_aux t t2 X M R hwf
    (by intro h; rw [h] at hM; simp at hM) hMv hR hRv hmount

theorem mount_resolve_exact_witness :
    goResolve [(['a'], VNode.dir [(['b'], VNode.fs 7)])]
      (canonical [['a'], ['b']] ++ canonical [['c'], ['d']])
      = .ok (canonical [['a'], ['b']], canonical [['c'], ['d']], (7 : Nat)) :=
  mount_resolve_exact [] _ 7 [['a'], ['b']] [['c'], ['d']] wfDir_nil (by decide)
    (by decide) (by decide) (by decide) (by rfl)

/-- C2: a path whose walk through the mount tree never reaches a mounted
backend (the empty path, an unknown segment, or a path ending on an
intermediate node) makes `Resolve` fail with the mount-point-not-found
error, and `Open` returns the same error without any backend delegation. -/
theorem resolve_unreached_error {α : Type} (t : VDir α) (p : Str)
    (h : fsPath t (names p) = none) :
    goResolve t p = .error (mpNotFound p) ∧ goOpen t p = .error (mpNotFound p) := by
  have h1 : goResolve t p = .error (mpNotFound p) :=
    resolveLoop_of_fsPath_none (names p) t [] h
  refine ⟨h1, ?_⟩
  unfold goOpen
  rw [h1]

theorem resolve_unreached_error_witness :
    (goResolve [(['a'], VNode.dir [(['b'], VNode.fs (0 : Nat))])] [] =
        .error (mpNotFound []) ∧
      goOpen [(['a'], VNode.dir [(['b'], VNode.fs (0 : Nat))])] [] =
        .error (mpNotFound [])) ∧
    (goResolve [(['a'], VNode.dir [(['b'], VNode.fs (0 : Nat))])] ['/', 'x'] =
        .error (mpNotFound ['/', 'x']) ∧
      goOpen [(['a'], VNode.dir [(['b'], VNode.fs (0 : Nat))])] ['/', 'x'] =
        .error (mpNotFound ['/', 'x'])) ∧
    (goResolve [(['a'], VNode.dir [(['b'], VNode.fs (0 : Nat))])] ['/', 'a'] =
        .error (mpNotFound ['/', 'a']) ∧
      goOpen [(['a'], VNode.dir [(['b'], VNode.fs (0 : Nat))])] ['/', 'a'] =
        .error (mpNotFound ['/', 'a'])) :=
  ⟨resolve_unreached_error _ _ (by rfl), resolve_unreached_error _ _ (by rfl),
    resolve_unreached_error _ _ (by rfl)⟩

/-- C9: `Path.Name` indexes `tmp[len(tmp)]`, one past the end, so it
panics (modelled as `none`) on every path with at least one segment, and
returns the empty string only for the empty/root path. -/
theorem pathName_panics (p : Str) :
    (names p ≠ [] → pathName p = none) ∧ (names p = [] → pathName p = some []) := by
  constructor
  · intro h
    unfold pathName
    rw [if_pos (List.length_pos.mpr h)]
    exact List.get?_eq_none.mpr (Nat.le_refl _)
  · intro h
    unfold pathName
    rw [h]
    rfl

theorem pathName_panics_witness :
    pathName ['/', 'a', '/', 'b'] = none ∧ pathName ['/'] = some [] :=
  ⟨(pathName_panics ['/', 'a', '/', 'b']).1 (by decide),
    (pathName_panics ['/']).2 (by decide)⟩

/-- C10: `Mount` slices `names[0:len(names)-1]` and indexes
`names[len(names)-1]`; with zero segments (empty or root mount point)
this panics (modelled as `none`), so nothing can ever be mounted at the
virtual root. -/
theorem mount_root_panics {α : Type} (t : VDir α) (X : α) (mp : Str)
    (h : names mp = []) : goMount t mp X = none := by
  unfold goMount
  rw [h]
  rfl

theorem mount_root_panics_witness :
    goMount ([] : VDir Nat) ['/'] 0 = none ∧ goMount ([] : VDir Nat) [] 0 = none :=
  ⟨mount_root_panics [] 0 ['/'] (by decide), mount_root_panics [] 0 [] (by decide)⟩

/-! ## Claim theorems: two-path operations -/

/-- C3 (amended): when the two paths of a two-path operation resolve to
different mount points, the composite returns the `EINVAL` cross-mount
`DefaultError` produced by `resolveOldNewPath` and delegates to neither
backend (the result is the error, not a delegated call). -/
theorem twoPath_cross_mount {α : Type} (op : TwoPathOp) (t : VDir α)
    (oldPath newPath mp0 pp0 mp1 pp1 : Str) (dp0 dp1 : α)
    (h0 : goResolve t oldPath = .ok (mp0, pp0, dp0))
    (h1 : goResolve t newPath = .ok (mp1, pp1, dp1))
    (hne : mp0 ≠ mp1) :
    goTwoPath op t oldPath newPath = .error (crossMountErr mp0 mp1) := by
  unfold goTwoPath resolveOldNew
  rw [h0, h1]
  simp only [if_neg hne]

theorem twoPath_cross_mount_witness :
    goTwoPath TwoPathOp.rename [(['a'], VNode.fs (0 : Nat)), (['b'], VNode.fs 1)]
        ['/', 'a', '/', 'f'] ['/', 'b', '/', 'f']
      = .error (crossMountErr ['/', 'a'] ['/', 'b']) :=
  twoPath_cross_mount TwoPathOp.rename _ _ _ ['/', 'a'] ['/', 'f'] ['/', 'b'] ['/', 'f']
    0 1 (by rfl) (by rfl) (by decide)

/-- C3 counterexample: for `backendX` at `/a` and `backendY` at `/b`,
`Rename("/a/f", "/b/f")` returns the `EINVAL` cross-mount error, whose
status code is not `ENOSYS` — not an unsupported-operation error. -/
theorem rename_cross_mount_einval :
    goTwoPath TwoPathOp.rename [(['a'], VNode.fs (0 : Nat)), (['b'], VNode.fs 1)]
        ['/', 'a', '/', 'f'] ['/', 'b', '/', 'f']
      = .error (crossMountErr ['/', 'a'] ['/', 'b'])
    ∧ (crossMountErr ['/', 'a'] ['/', 'b']).code = EINVAL
    ∧ (crossMountErr ['/', 'a'] ['/', 'b']).code ≠ ENOSYS :=
  ⟨by rfl, by rfl, by decide⟩

/-! ## Mount does not disturb prefix-incomparable resolutions -/

theorem resolveLoop_cons_none {orig : Str} {ch : VDir α} {n : Str}
    {rest : List Str} {acc : Str} (hc : childByName ch n = none) :
    resolveLoop orig ch (n :: rest) acc = .error (mpNotFound orig) := by
  simp only [resolveLoop, hc]

theorem resolveLoop_cons_fs {orig : Str} {ch : VDir α} {n : Str}
    {rest : List Str} {acc : Str} {f : α} (hc : childByName ch n = some (.fs f)) :
    resolveLoop orig ch (n :: rest) acc =
      .ok (pathString (child acc n),
        pathString (trimPfx orig (pathString (child acc n))), f) := by
  simp only [resolveLoop, hc]

theorem resolveLoop_cons_dir {orig : Str} {ch : VDir α} {n : Str}
    {rest : List Str} {acc : Str} {d : VDir α} (hc : childByName ch n = some (.dir d)) :
    resolveLoop orig ch (n :: rest) acc =
      resolveLoop orig d rest (pathString (child acc n)) := by
  simp only [resolveLoop, hc]

theorem mountList_childByName_ne {ms : List Str} {ch ch' : VDir α} {f : α} {n : Str}
    (hm : mountList ch ms f = some ch') (hne : ∀ m0, ms.head? = some m0 → n ≠ m0) :
    childByName ch' n = childByName ch n := by
  cases ms with
  | nil => simp [mountList] at hm
  | cons m ms2 =>
    have hnm : n ≠ m := hne m rfl
    cases ms2 with
    | nil =>
      simp only [mountList] at hm
      injection hm with h1
      rw [← h1]
      cases hres : childByName ch n with
      | none =>
        rw [childByName_append_right (by rw [childByName_removeChild_ne hnm]; exact hres)]
        simp only [childByName]
        rw [if_neg (fun hh => hnm hh.symm)]
      | some v =>
        exact childByName_append_left (by rw [childByName_removeChild_ne hnm]; exact hres)
    | cons m2 ms3 =>
      simp only [mountList] at hm
      cases hc : childByName ch m with
      | none =>
        rw [hc] at hm
        rcases Option.map_eq_some'.mp hm with ⟨sub, hsub, h1⟩
        rw [← h1]
        cases hres : childByName ch n with
        | none =>
          rw [childByName_append_right hres]
          simp only [childByName]
          rw [if_neg (fun hh => hnm hh.symm)]
        | some v => exact childByName_append_left hres
      | some nd =>
        cases nd with
        | dir d =>
          rw [hc] at hm
          rcases Option.map_eq_some'.mp hm with ⟨sub, hsub, h1⟩
          rw [← h1]
          exact childByName_setChild_ne hnm
        | fs g =>
          rw [hc] at hm
          rcases Option.map_eq_some'.mp hm with ⟨sub, hsub, h1⟩
          rw [← h1]
          exact childByName_setChild_ne hnm

theorem resolveLoop_mount_unrelated {orig : Str} :
    ∀ (ns ms : List Str) (ch ch' : VDir α) (f : α) (acc : Str) (w : List Str) (Z : α),
    wfDir ch → mountList ch ms f = some ch' → fsPath ch ns = some (w, Z) →
    ¬ w <+: ms → ¬ ms <+: w →
    resolveLoop orig ch' ns acc = resolveLoop orig ch ns acc := by
  intro ns
  induction ns with
  | nil => intro ms ch ch' f acc w Z hwf hm hf _ _; simp [fsPath] at hf
  | cons n rest ih =>
    intro ms ch ch' f acc w Z hwf hm hf hpw hpm
    cases ms with
    | nil => simp [mountList] at hm
    | cons m ms2 =>
      by_cases hnm : n = m
      · subst hnm
        cases hc : childByName ch n with
        | none => rw [fsPath_cons_none hc] at hf; cases hf
        | some nd =>
          cases nd with
          | fs Z2 =>
            rw [fsPath_cons_fs hc] at hf
            injection hf with h1
            exfalso
            apply hpw
            have hw : w = [n] := by
              have := congrArg Prod.fst h1
              exact this.symm
            rw [hw]
            exact List.cons_prefix_cons.mpr ⟨rfl, List.nil_prefix⟩
          | dir d =>
            rw [fsPath_cons_dir hc] at hf
            rcases Option.map_eq_some'.mp hf with ⟨⟨w2, Z2⟩, hsub, h1⟩
            have hw : w = n :: w2 := by
              have := congrArg Prod.fst h1
              exact this.symm
            cases ms2 with
            | nil =>
              exfalso
              apply hpm
              rw [hw]
              exact List.cons_prefix_cons.mpr ⟨rfl, List.nil_prefix⟩
            | cons m2 ms3 =>
              simp only [mountList] at hm
              rw [hc] at hm
              rcases Option.map_eq_some'.mp hm with ⟨sub, hsub2, h2⟩
              rw [← h2]
              have hcn := childByName_setChild_self hc (VNode.dir sub)
              rw [resolveLoop_cons_dir hcn, resolveLoop_cons_dir hc]
              refine ih (m2 :: ms3) d sub f (pathString (child acc n)) w2 Z2
                (wfDir_child_dir hwf hc) hsub2 ?_ ?_ ?_
              · exact hsub
              · intro hcon
                apply hpw
                rw [hw]
                exact List.cons_prefix_cons.mpr ⟨rfl, hcon⟩
              · intro hcon
                apply hpm
                rw [hw]
                exact List.cons_prefix_cons.mpr ⟨rfl, hcon⟩
      · have hch : childByName ch' n = childByName ch n :=
          mountList_childByName_ne hm (by intro m0 hm0; injection hm0 with hh; rw [← hh]; exact hnm)
        cases hc : childByName ch n with
        | none => rw [resolveLoop_cons_none (hch.trans hc), resolveLoop_cons_none hc]
        | some nd =>
          cases nd with
          | fs Z2 => rw [resolveLoop_cons_fs (hch.trans hc), resolveLoop_cons_fs hc]
          | dir d => rw [resolveLoop_cons_dir (hch.trans hc), resolveLoop_cons_dir hc]

theorem fsPath_ne_nil : ∀ (ns : List Str) (ch : VDir α) (w : List Str) (f : α),
    fsPath ch ns = some (w, f) → w ≠ [] := by
  intro ns
  cases ns with
  | nil => intro ch w f hf; simp [fsPath] at hf
  | cons n rest =>
    intro ch w f hf
    cases hc : childByName ch n with
    | none => rw [fsPath_cons_none hc] at hf; cases hf
    | some nd =>
      cases nd with
      | fs dp =>
        rw [fsPath_cons_fs hc] at hf
        injection hf with h1
        have hw : w = [n] := (congrArg Prod.fst h1).symm
        rw [hw]
        simp
      | dir d =>
        rw [fsPath_cons_dir hc] at hf
        rcases Option.map_eq_some'.mp hf with ⟨⟨w2, Z2⟩, _, h1⟩
        have hw : w = n :: w2 := (congrArg Prod.fst h1).symm
        rw [hw]
        simp

/-- Extract the walk data from a successful `Resolve`: the consumed
segment list `w` (with `mountPoint = canonical w` and
`names mountPoint = w`), its backend, and the provider path. -/
theorem goResolve_ok_fsPath {α : Type} {t : VDir α} {p mp pp : Str} {Z : α}
    (hres : goResolve t p = .ok (mp, pp, Z)) :
    fsPath t (names p) = some (names mp, Z) ∧ mp = canonical (names mp)
      ∧ (names mp) <+: names p := by
  cases hfp : fsPath t (names p) with
  | none =>
    unfold goResolve at hres
    rw [resolveLoop_of_fsPath_none (names p) t [] hfp] at hres
    cases hres
  | some wz =>
    obtain ⟨w, Z2⟩ := wz
    unfold goResolve at hres
    rw [resolveLoop_of_fsPath_some (names p) t [] w Z2 hfp] at hres
    injection hres with h1
    have hmp : mpFold [] w = mp := congrArg (fun x => x.1) h1
    have hZ : Z2 = Z := congrArg (fun x => x.2.2) h1
    have hwne : w ≠ [] := fsPath_ne_nil (names p) t w Z2 hfp
    have hwv : ∀ s ∈ w, ValidSeg s := by
      intro s hs
      exact validSeg_of_mem_names p s ((fsPath_pfx (names p) t w Z2 hfp).subset hs)
    have hcan : mpFold [] w = canonical w := mpFold_nil_canonical w hwne hwv
    have hnm : names mp = w := by
      rw [← hmp, hcan, names_canonical w hwv]
    have c1 : (some (w, Z2) : Option (List Str × α)) = some (names mp, Z) := by
      rw [hnm, ← hZ]
    have c2 : mp = canonical (names mp) := by
      rw [hnm, ← hmp, hcan]
    have c3 : names mp <+: names p := by
      rw [hnm]
      exact fsPath_pfx (names p) t w Z2 hfp
    exact ⟨c1, c2, c3⟩

/-- C4 (amended): mounting `Y` at mount point `M` over whatever was there
(here: a previous mount of `X` at the same `M`) makes every `Resolve`
under `M` return `Y`; and any path that previously resolved to a mount
point prefix-incomparable with `M` (neither an ancestor nor a descendant)
still resolves to the same triple.  (A backend at a proper ancestor of
`M` is destroyed — see the counterexample for the original claim.) -/
theorem mount_overwrite {α : Type} (t t1 t2 : VDir α) (X Y : α) (M R : List Str)
    (hwf : wfDir t) (hMne : M ≠ []) (hMv : ∀ s ∈ M, ValidSeg s)
    (hR : R ≠ []) (hRv : ∀ s ∈ R, ValidSeg s)
    (h1 : goMount t (canonical M) X = some t1)
    (h2 : goMount t1 (canonical M) Y = some t2) :
    goResolve t2 (canonical M ++ canonical R) = .ok (canonical M, canonical R, Y)
    ∧ ∀ (p mp pp : Str) (Z : α), goResolve t1 p = .ok (mp, pp, Z) →
        ¬ names mp <+: M → ¬ M <+: names mp →
        goResolve t2 p = .ok (mp, pp, Z) := by
  have hwf1 : wfDir t1 := by
    unfold goMount at h1
    rw [names_canonical M hMv] at h1
    exact wfDir_mountList M t t1 X hwf h1
  constructor
  · exact resolve_after_mount_aux t1 t2 Y M R hwf1 hMne hMv hR hRv h2
  · intro p mp pp Z hres hnp hnm
    obtain ⟨hfp, _, _⟩ := goResolve_ok_fsPath hres
    unfold goMount at h2
    rw [names_canonical M hMv] at h2
    unfold goResolve at hres ⊢
    rw [resolveLoop_mount_unrelated (names p) M t1 t2 Y [] (names mp) Z
      hwf1 h2 hfp hnp hnm]
    exact hres

theorem mount_overwrite_witness :
    goResolve [(['q'], VNode.fs (9 : Nat)), (['a'], VNode.dir [(['b'], VNode.fs 2)])]
        (canonical [['a'], ['b']] ++ canonical [['x']])
      = .ok (canonical [['a'], ['b']], canonical [['x']], 2)
    ∧ goResolve [(['q'], VNode.fs (9 : Nat)), (['a'], VNode.dir [(['b'], VNode.fs 2)])]
        ['/', 'q', '/', 'z'] = .ok (['/', 'q'], ['/', 'z'], 9) := by
  have hwf : wfDir [(['q'], VNode.fs (9 : Nat))] := by
    refine WFn.dir _ (by simp) ?_
    intro e he
    rw [List.mem_singleton] at he
    rw [he]
    exact WFn.fs 9
  have h := mount_overwrite [(['q'], VNode.fs (9 : Nat))]
    [(['q'], VNode.fs 9), (['a'], VNode.dir [(['b'], VNode.fs 1)])]
    [(['q'], VNode.fs 9), (['a'], VNode.dir [(['b'], VNode.fs 2)])]
    1 2 [['a'], ['b']] [['x']] hwf (by decide) (by decide) (by decide) (by decide)
    (by rfl) (by rfl)
  exact ⟨h.1, h.2 ['/', 'q', '/', 'z'] ['/', 'q'] ['/', 'z'] 9 (by rfl)
    (by decide) (by decide)⟩

/-- C4 counterexample: a backend mounted at an ancestor path does NOT
remain resolvable after mounting below it — mounting `9` at `/a/b` while
`5` is mounted at `/a` destroys the `/a` mount (`Resolve("/a/f")` now
fails), matching the source's own doc comment on `MountableFileSystem`. -/
theorem mount_ancestor_destroyed :
    goMount ([] : VDir Nat) ['/', 'a'] 5 = some [(['a'], VNode.fs 5)]
    ∧ goResolve [(['a'], VNode.fs (5 : Nat))] ['/', 'a', '/', 'f']
      = .ok (['/', 'a'], ['/', 'f'], 5)
    ∧ goMount [(['a'], VNode.fs (5 : Nat))] ['/', 'a', '/', 'b'] 9
      = some [(['a'], VNode.dir [(['b'], VNode.fs 9)])]
    ∧ goResolve [(['a'], VNode.dir [(['b'], VNode.fs (9 : Nat))])] ['/', 'a', '/', 'f']
      = .error (mpNotFound ['/', 'a', '/', 'f']) :=
  ⟨by rfl, by rfl, by rfl, by rfl⟩

/-! ## Claim theorems: Disconnect -/

theorem removeLeafAt_fsPath : ∀ (ns : List Str) (ch : VDir α) (Z : α),
    wfDir ch → fsPath ch ns = some (ns, Z) →
    ∃ ch2, removeLeafAt ch ns = some ch2 ∧ fsPath ch2 ns = none := by
  intro ns
  induction ns with
  | nil => intro ch Z _ hf; simp [fsPath] at hf
  | cons n rest ih =>
    intro ch Z hwf hf
    cases hc : childByName ch n with
    | none => rw [fsPath_cons_none hc] at hf; cases hf
    | some nd =>
      cases nd with
      | fs dp =>
        rw [fsPath_cons_fs hc] at hf
        injection hf with h1
        have hrest : [n] = n :: rest := congrArg Prod.fst h1
        have hrnil : rest = [] := by
          injection hrest with _ h2
          exact h2.symm
        subst hrnil
        refine ⟨removeChild ch n, rfl, ?_⟩
        exact fsPath_cons_none
          (childByName_eq_none.mpr (not_mem_map_removeChild (wfDir_nodup hwf)))
      | dir d =>
        rw [fsPath_cons_dir hc] at hf
        rcases Option.map_eq_some'.mp hf with ⟨⟨w2, Z2⟩, hsub, h1⟩
        have hw : n :: w2 = n :: rest := congrArg Prod.fst h1
        have hw2 : w2 = rest := by injection hw
        rw [hw2] at hsub
        cases rest with
        | nil => simp [fsPath] at hsub
        | cons m rest2 =>
          obtain ⟨d2, hrem, hnone⟩ := ih d Z2 (wfDir_child_dir hwf hc) hsub
          refine ⟨setChild ch n (.dir d2), ?_, ?_⟩
          · show (match childByName ch n with
              | none => none
              | some (.fs _) => none
              | some (.dir d3) =>
                (removeLeafAt d3 (m :: rest2)).map (fun d4 => setChild ch n (.dir d4)))
              = some (setChild ch n (.dir d2))
            rw [hc]
            show (removeLeafAt d (m :: rest2)).map (fun d4 => setChild ch n (.dir d4))
              = some (setChild ch n (.dir d2))
            rw [hrem]
            rfl
          · rw [fsPath_cons_dir (childByName_setChild_self hc (VNode.dir d2)), hnone]
            rfl

/-- C7: when the disconnected path is exactly a mount point, `Disconnect`
removes the mount entry from the tree even when the backend's own
`Disconnect` fails, and the backend's error (`beh X`) is returned after
the tree cleanup; afterwards the path no longer resolves. -/
theorem disconnect_removes {α : Type} (beh : α → Option GoErr) (t : VDir α)
    (p mp pp : Str) (X : α) (hwf : wfDir t)
    (hres : goResolve t p = .ok (mp, pp, X)) (hexact : names mp = names p) :
    ∃ t2, goDisconnect beh t p = some (t2, beh X)
      ∧ goResolve t2 p = .error (mpNotFound p) := by
  obtain ⟨hfp, _, _⟩ := goResolve_ok_fsPath hres
  rw [hexact] at hfp
  obtain ⟨t2, hrem, hnone⟩ := removeLeafAt_fsPath (names p) t X hwf hfp
  refine ⟨t2, ?_, ?_⟩
  · unfold goDisconnect
    rw [hres, hrem]
    rfl
  · unfold goResolve
    exact resolveLoop_of_fsPath_none (names p) t2 [] hnone

theorem disconnect_removes_witness :
    goDisconnect (fun _ => some ⟨5, ['b', 'o', 'o', 'm'], none⟩)
        [(['a'], VNode.dir [(['b'], VNode.fs (3 : Nat))])] ['/', 'a', '/', 'b']
      = some ([(['a'], VNode.dir [])], some ⟨5, ['b', 'o', 'o', 'm'], none⟩)
    ∧ goResolve [(['a'], VNode.dir ([] : VDir Nat))] ['/', 'a', '/', 'b']
      = .error (mpNotFound ['/', 'a', '/', 'b']) := by
  have hwf : wfDir [(['a'], VNode.dir [(['b'], VNode.fs (3 : Nat))])] := by
    refine WFn.dir _ (by simp) ?_
    intro e he
    rw [List.mem_singleton] at he
    rw [he]
    refine WFn.dir _ (by simp) ?_
    intro e2 he2
    rw [List.mem_singleton] at he2
    rw [he2]
    exact WFn.fs 3
  obtain ⟨t2, hd, hr⟩ := disconnect_removes (fun _ => some ⟨5, ['b', 'o', 'o', 'm'], none⟩)
    [(['a'], VNode.dir [(['b'], VNode.fs (3 : Nat))])] ['/', 'a', '/', 'b']
    ['/', 'a', '/', 'b'] ['/'] 3 hwf (by rfl) (by rfl)
  have hc : goDisconnect (fun _ => some ⟨5, ['b', 'o', 'o', 'm'], none⟩)
      [(['a'], VNode.dir [(['b'], VNode.fs (3 : Nat))])] ['/', 'a', '/', 'b']
      = some ([(['a'], VNode.dir [])], some ⟨5, ['b', 'o', 'o', 'm'], none⟩) := by rfl
  rw [hc] at hd
  injection hd with h1
  injection h1 with h2 h3
  rw [← h2] at hr
  exact ⟨hc, hr⟩

/-! ## The joined result set (rootprovider.go)

A constituent `ResultSet` is modelled by the number of rows its `Next`
will still deliver and its `Size()` value.  `joinedResultSet` carries the
constituent list and `activeIdx`, exactly as in the source. -/

/-- An abstract constituent result set: `rows` is how often its `Next`
still returns `true`; `size` is its `Size()`. -/
structure RS where
  rows : Nat
  size : Int
  deriving DecidableEq

/-- One `Next()` call on a constituent: `true` while rows remain. -/
def rsNext : RS → Bool × RS
  | ⟨0, s⟩ => (false, ⟨0, s⟩)
  | ⟨k + 1, s⟩ => (true, ⟨k, s⟩)

/-- The state of a `joinedResultSet`. -/
structure JRS where
  results : List RS
  activeIdx : Nat
  deriving DecidableEq

/-- Models `joinedResultSet.Size` (rootprovider.go): sum of the constituents. -/
def jrsSize (j : JRS) : Int := (j.results.map RS.size).sum

/-- Termination measure for the `Next` recursion: pending rows from the
active index on, plus the remaining constituents. -/
def jrsMeasure (j : JRS) : Nat :=
  ((j.results.drop j.activeIdx).map RS.rows).sum + (j.results.length - j.activeIdx)

theorem rsNext_true {r : RS} (h : (rsNext r).1 = true) : (rsNext r).2.rows + 1 = r.rows := by
  obtain ⟨rows, size⟩ := r
  cases rows with
  | zero => simp [rsNext] at h
  | succ k => rfl

theorem rsNext_false {r : RS} (h : (rsNext r).1 = false) : (rsNext r).2 = r := by
  obtain ⟨rows, size⟩ := r
  cases rows with
  | zero => rfl
  | succ k => simp [rsNext] at h

theorem drop_set_self {β : Type} : ∀ (l : List β) (i : Nat) (v : β), i < l.length →
    (l.set i v).drop i = v :: l.drop (i + 1) := by
  intro l
  induction l with
  | nil => intro i v h; simp at h
  | cons a as ih =>
    intro i v h
    cases i with
    | zero => rfl
    | succ k =>
      show (a :: as.set k v).drop (k + 1) = v :: (a :: as).drop (k + 2)
      simp only [List.drop_succ_cons]
      exact ih k v (by simpa using h)

theorem drop_succ_set {β : Type} : ∀ (l : List β) (i : Nat) (v : β),
    (l.set i v).drop (i + 1) = l.drop (i + 1) := by
  intro l
  induction l with
  | nil => intro i v; rfl
  | cons a as ih =>
    intro i v
    cases i with
    | zero => rfl
    | succ k =>
      show (a :: as.set k v).drop (k + 2) = (a :: as).drop (k + 2)
      simp only [List.drop_succ_cons]
      exact ih k v

theorem jrsMeasure_aux (rs : List RS) (i : Nat) (hlt : i < rs.length)
    (b : Bool) (r2 : RS) (hbr : rsNext (rs.get ⟨i, hlt⟩) = (b, r2)) :
    jrsMeasure ⟨rs.set i r2, if b then i else i + 1⟩ < jrsMeasure ⟨rs, i⟩ := by
  have hdrop : rs.drop i = rs[i] :: rs.drop (i + 1) := List.drop_eq_getElem_cons hlt
  cases b with
  | true =>
    have hrow : r2.rows + 1 = rs[i].rows := by
      have h1 := rsNext_true (show (rsNext (rs.get ⟨i, hlt⟩)).1 = true by rw [hbr])
      rw [hbr] at h1
      rw [List.get_eq_getElem] at h1
      exact h1
    show jrsMeasure ⟨rs.set i r2, i⟩ < jrsMeasure ⟨rs, i⟩
    simp only [jrsMeasure]
    rw [drop_set_self rs i r2 hlt, List.length_set, hdrop]
    simp only [List.map_cons, List.sum_cons]
    omega
  | false =>
    show jrsMeasure ⟨rs.set i r2, i + 1⟩ < jrsMeasure ⟨rs, i⟩
    simp only [jrsMeasure]
    rw [drop_succ_set, List.length_set, hdrop]
    simp only [List.map_cons, List.sum_cons]
    omega

theorem jrsMeasure_step (j : JRS) (h : ¬ j.results.length ≤ j.activeIdx) :
    jrsMeasure
      ⟨j.results.set j.activeIdx
          (rsNext (j.results.get ⟨j.activeIdx, Nat.lt_of_not_le h⟩)).2,
        if (rsNext (j.results.get ⟨j.activeIdx, Nat.lt_of_not_le h⟩)).1
        then j.activeIdx else j.activeIdx + 1⟩
      < jrsMeasure j := by
  have hlt : j.activeIdx < j.results.length := Nat.lt_of_not_le h
  have h2 := jrsMeasure_aux j.results j.activeIdx hlt
    (rsNext (j.results.get ⟨j.activeIdx, hlt⟩)).1
    (rsNext (j.results.get ⟨j.activeIdx, hlt⟩)).2 rfl
  exact h2

/-- Models `joinedResultSet.Next` (rootprovider.go).  The source recurses
unconditionally (`return r.Next()`), advancing `activeIdx` only when the
current constituent is exhausted; each call consumes one row of the
current constituent when one remains. -/
def jrsNext (j : JRS) : Bool × JRS :=
  if h : j.results.length ≤ j.activeIdx then (false, j)
  else
    jrsNext
      ⟨j.results.set j.activeIdx
          (rsNext (j.results.get ⟨j.activeIdx, Nat.lt_of_not_le h⟩)).2,
        if (rsNext (j.results.get ⟨j.activeIdx, Nat.lt_of_not_le h⟩)).1
        then j.activeIdx else j.activeIdx + 1⟩
termination_by jrsMeasure j
decreasing_by exact jrsMeasure_step j h

theorem jrsNext_fst_false : ∀ (N : Nat) (j : JRS), jrsMeasure j ≤ N →
    (jrsNext j).1 = false := by
  intro N
  induction N with
  | zero =>
    intro j hj
    rw [jrsNext]
    by_cases h : j.results.length ≤ j.activeIdx
    · rw [dif_pos h]
    · exfalso
      have hlt : j.activeIdx < j.results.length := Nat.lt_of_not_le h
      unfold jrsMeasure at hj
      omega
  | succ k ih =>
    intro j hj
    rw [jrsNext]
    by_cases h : j.results.length ≤ j.activeIdx
    · rw [dif_pos h]
    · rw [dif_neg h]
      apply ih
      have := jrsMeasure_step j h
      omega

/-- C5: the joined result set sums `Size()` over its constituents (3 and
2 give 5), but its `Next` — which recurses unconditionally instead of
returning `true` while the current constituent has rows — drains every
constituent and returns `false` on the very first call, so no entry can
ever be scanned (contradicting the `ResultSet.Next` contract and the
specified iteration order). -/
theorem joined_size_but_next_drains :
    jrsSize ⟨[⟨3, 3⟩, ⟨2, 2⟩], 0⟩ = 5
    ∧ (jrsNext ⟨[⟨3, 3⟩, ⟨2, 2⟩], 0⟩).1 = false :=
  ⟨by rfl, jrsNext_fst_false (jrsMeasure ⟨[⟨3, 3⟩, ⟨2, 2⟩], 0⟩) _ (Nat.le_refl _)⟩

/-! ## The router matcher (spec-modelled)

The router revision with context-bearing `Match`/`Dispatch` and the
trailing-wildcard rule is exercised by the `TestRouter_Dispatch` test in
the sources, but its `matcher.apply` implementation is not among the
available files; the two `matcher.apply` revisions that are present lack
the wildcard rule.  The matcher below is therefore modelled from the
spec. -/

/-- The opening brace character of a named capture segment. -/
def braceOpen : Char := Char.ofNat 123

/-- The closing brace character of a named capture segment. -/
def braceClose : Char := Char.ofNat 125

/-- A pattern segment wrapped in braces (a named capture). -/
def isNamedVar (s : Str) : Bool :=
  (s.head? == some braceOpen) && (s.getLast? == some braceClose)

/-- Pairwise segment comparison for equal segment counts: a named capture
matches anything, a literal `*` segment short-circuits as a full match,
any other literal must be equal. -/
def segsMatch : List Str → List Str → Bool
  | [], [] => true
  | p :: ps, x :: xs =>
    if isNamedVar p then segsMatch ps xs
    else if p = ['*'] then true
    else if p = x then segsMatch ps xs
    else false
  | _, _ => false

/-- Modelled from the spec: `matcher.apply` of the router revision with
the trailing-wildcard rule (spec section 4.2; its source is missing, only
its `TestRouter_Dispatch` test and two earlier revisions without the rule
are available).  Steps: a bare `*` pattern matches everything; equal
canonical string forms match; with equal segment counts the segments are
compared pairwise; with differing segment counts the pattern matches iff
its last segment is `*` and the path's string form starts with the
pattern's parent's string form. -/
def matcherApply (pattern path : Str) : Bool :=
  if pattern = ['*'] then true
  else if pathString pattern = pathString path then true
  else if (names pattern).length = (names path).length then
    segsMatch (names pattern) (names path)
  else
    match (names pattern).getLast? with
    | some s =>
      if s = ['*'] then startsWith (pathString path) (pathString (parent pattern))
      else false
    | none => false

/-- C6: a pattern whose last segment is the trailing wildcard `*` matches
every path whose string form starts with the pattern's parent's string
form whenever the segment counts differ; in particular `/a/c/*` matches
`/a/c`, `/a/c/e` (equal counts, via the `*` segment) and `/a/c/e/f/g`. -/
theorem trailing_wildcard_matches (pat p : Str)
    (hlast : (names pat).getLast? = some ['*'])
    (hlen : (names pat).length ≠ (names p).length)
    (hsw : startsWith (pathString p) (pathString (parent pat)) = true) :
    matcherApply pat p = true
    ∧ matcherApply ['/', 'a', '/', 'c', '/', '*'] ['/', 'a', '/', 'c'] = true
    ∧ matcherApply ['/', 'a', '/', 'c', '/', '*'] ['/', 'a', '/', 'c', '/', 'e'] = true
    ∧ matcherApply ['/', 'a', '/', 'c', '/', '*']
        ['/', 'a', '/', 'c', '/', 'e', '/', 'f', '/', 'g'] = true := by
  refine ⟨?_, by decide, by decide, by decide⟩
  unfold matcherApply
  by_cases h1 : pat = ['*']
  · rw [if_pos h1]
  · rw [if_neg h1]
    by_cases h2 : pathString pat = pathString p
    · rw [if_pos h2]
    · rw [if_neg h2, if_neg hlen, hlast]
      show (if (['*'] : Str) = ['*']
        then startsWith (pathString p) (pathString (parent pat)) else false) = true
      rw [if_pos rfl]
      exact hsw

theorem trailing_wildcard_matches_witness :
    matcherApply ['/', 'a', '/', 'c', '/', '*']
      ['/', 'a', '/', 'c', '/', 'e', '/', 'f', '/', 'g'] = true :=
  (trailing_wildcard_matches ['/', 'a', '/', 'c', '/', '*']
    ['/', 'a', '/', 'c', '/', 'e', '/', 'f', '/', 'g']
    (by decide) (by decide) (by decide)).1

/-! ## Claim theorems: path round trip -/

/-- C8 counterexample: as raw string values,
`Path("/a").Child("b").TrimPrefix(Path("/a"))` is `"//b"`, which is not
the string `"/b"`; the round trip only holds up to path equality
(equal segment sequences / canonical form). -/
theorem child_trimPfx_not_raw_equal :
    trimPfx (child ['/', 'a'] ['b']) ['/', 'a'] ≠ ['/', 'b']
    ∧ trimPfx (child ['/', 'a'] ['b']) ['/', 'a'] = ['/', '/', 'b'] :=
  ⟨by decide, by decide⟩

/-- C8 (amended): for every string `s` and valid single-segment `name`,
`Path(s).Child(name).TrimPrefix(Path(s))` equals `Path("/" + name)` as a
path — equal segment sequences and equal canonical `String()` forms —
though not as a raw string. -/
theorem child_trimPfx_roundtrip (s n : Str) (hn : ValidSeg n) :
    names (trimPfx (child s n) s) = names ('/' :: n)
    ∧ pathString (trimPfx (child s n) s) = pathString ('/' :: n) := by
  have hkey : trimPfx (child s n) s
      = '/' :: stripPfx (canonical (names s ++ [n])) (canonical (names s)) := by
    unfold trimPfx
    rw [pathString_child s n hn, pathString_eq_canonical]
  have hnames : names (trimPfx (child s n) s) = [n] := by
    rw [hkey]
    cases hns : names s with
    | nil =>
      have hstrip : stripPfx (canonical ([] ++ [n])) (canonical []) = n := by
        show stripPfx ('/' :: n) ['/'] = n
        unfold stripPfx
        rw [if_pos (isPfxOf_of_pfx
          (List.cons_prefix_cons.mpr ⟨rfl, List.nil_prefix⟩))]
        rfl
      rw [hstrip, names_cons_slash, names_single n hn]
    | cons a L =>
      have hvs : ∀ x ∈ names s, ValidSeg x := validSeg_of_mem_names s
      rw [hns] at hvs
      have happ : canonical ((a :: L) ++ [n]) = canonical (a :: L) ++ '/' :: n :=
        canonical_append (a :: L) [n] (by simp) (by simp)
      have hstrip : stripPfx (canonical ((a :: L) ++ [n])) (canonical (a :: L))
          = '/' :: n := by
        unfold stripPfx
        rw [happ,
          if_pos (isPfxOf_of_pfx (List.prefix_append _ _)),
          List.drop_left]
      rw [hstrip, names_cons_slash, names_cons_slash, names_single n hn]
  refine ⟨?_, ?_⟩
  · rw [hnames, names_cons_slash, names_single n hn]
  · rw [pathString_eq_canonical, hnames,
      pathString_eq_canonical, names_cons_slash, names_single n hn]

theorem child_trimPfx_roundtrip_witness :
    names (trimPfx (child ['/', 'a'] ['b']) ['/', 'a']) = names ['/', 'b']
    ∧ pathString (trimPfx (child ['/', 'a'] ['b']) ['/', 'a'])
      = pathString ['/', 'b'] :=
  child_trimPfx_roundtrip ['/', 'a'] ['b'] (by decide)

end Vfs
